import Mathlib

/-!
Verification of the deduplication core of the job-search aggregator
(`src/main.py`).  The embedding models strings as `List Char` over the
ASCII fragment (Python's `str.lower`, `str.strip`, and the regex classes
`\w`/`\s` are Unicode-aware; every record the claims touch is ASCII).
Similarity ratios are modelled as exact rationals where the source uses
Python floats.
-/

namespace JobSearch

/-- Python whitespace class `\s` / `str.strip`, ASCII fragment. -/
def isSpaceChar (c : Char) : Bool :=
  c = ' ' || c = '\t' || c = '\n' || c = '\r' || c = '\x0b' || c = '\x0c'

/-- Python word-character class `\w`, ASCII fragment: alphanumeric or underscore. -/
def isWordChar (c : Char) : Bool :=
  c.isAlphanum || c = '_'

/-- `str.lower()` on the ASCII fragment. -/
def lowerChars (s : List Char) : List Char :=
  s.map Char.toLower

/-- `str.strip()`: drop leading and trailing whitespace. -/
def stripChars (s : List Char) : List Char :=
  ((s.dropWhile isSpaceChar).reverse.dropWhile isSpaceChar).reverse

/-- Worker for `collapseSpaces`: `inRun` records whether the previous
character was whitespace (i.e. we are inside a `\s+` run whose single
replacement space has already been emitted). -/
def collapseGo (inRun : Bool) : List Char → List Char
  | [] => []
  | c :: rest =>
    if isSpaceChar c then
      (if inRun then [] else [' ']) ++ collapseGo true rest
    else c :: collapseGo false rest

/-- `re.sub(r'\s+', ' ', s)`: replace each maximal whitespace run by one space. -/
def collapseSpaces (s : List Char) : List Char :=
  collapseGo false s

/-- `normalize_text` from src/main.py: empty guard, lowercase + strip, drop
characters matching `[^\w\s]`, collapse whitespace runs. -/
def normalize_text (text : List Char) : List Char :=
  if text = [] then []
  else collapseSpaces ((stripChars (lowerChars text)).filter
    (fun c => isWordChar c || isSpaceChar c))

/-- Substring test: `needle in hay` on Python strings. -/
def containsSub (needle hay : List Char) : Bool :=
  hay.tails.any (fun t => needle.isPrefixOf t)

/-! ### difflib.SequenceMatcher(None, a, b).ratio()

`similarity_ratio` calls the stdlib `SequenceMatcher` with no junk
predicate.  We embed its algorithm: `__chain_b` builds `b2j` (indices of
each element of `b`, with "popular" elements dropped when `len(b) >= 200`,
the autojunk heuristic), `find_longest_match` runs the row dynamic
programming and then extends the block (the bjunk-extension loops are
no-ops because `isjunk is None` makes `bjunk` empty), and `ratio` is
`2*M/T` over the total size `M` of all matching blocks. -/

/-- Autojunk popularity test from `SequenceMatcher.__chain_b`:
active only when `len(b) >= 200`. -/
def popularChar (b : List Char) (c : Char) : Bool :=
  b.length ≥ 200 && b.count c > b.length / 100 + 1

/-- `b2j[c]`: ascending indices of `c` in `b`, popular elements removed. -/
def b2j (b : List Char) (c : Char) : List Nat :=
  if popularChar b c then []
  else (b.enum.filter (fun p => p.2 == c)).map Prod.fst

/-- Inner loop of `find_longest_match` for one row `i`: fold over the
(range-filtered) occurrence list of `a[i]` in `b`, building the new
`j2len` row and updating the best block `(besti, bestj, bestsize)`.
`k = j2len.get(j-1, 0) + 1`; `j2len.get(-1, 0) = 0` forces the `j = 0`
case split. -/
def flmRow (i : Nat) (j2lenOld : Nat → Nat) (best : Nat × Nat × Nat)
    (js : List Nat) : (Nat → Nat) × (Nat × Nat × Nat) :=
  js.foldl
    (fun acc j =>
      let k := (if j = 0 then 0 else j2lenOld (j - 1)) + 1
      let newRow := fun x => if x = j then k else acc.1 x
      let best' := if k > acc.2.2.2 then (i + 1 - k, j + 1 - k, k) else acc.2
      (newRow, best'))
    ((fun _ => 0), best)

/-- Main dynamic-programming loop of `find_longest_match` over
`a[alo:ahi]`, `b[blo:bhi]`; the `continue`/`break` guards on `j` become a
range filter (the occurrence lists are ascending). -/
def flmMain (a b : List Char) (alo ahi blo bhi : Nat) : Nat × Nat × Nat :=
  ((List.range' alo (ahi - alo)).foldl
    (fun acc i =>
      let js := (b2j b (a.getD i ' ')).filter (fun j => blo ≤ j && j < bhi)
      flmRow i acc.1 acc.2 js)
    ((fun _ => 0), (alo, blo, 0))).2

/-- First extension loop: grow the best block backwards while the adjacent
elements match (`isbjunk` is constantly false since `isjunk is None`).
Fuel-structured: each step requires `alo < besti` and decrements `besti`,
so fuel `besti` makes the guard, not the fuel, terminate the loop. -/
def extendHead (a b : List Char) (alo blo : Nat) :
    Nat → Nat × Nat × Nat → Nat × Nat × Nat
  | 0, m => m
  | fuel + 1, (besti, bestj, bestsize) =>
    if alo < besti ∧ blo < bestj ∧
        a.getD (besti - 1) ' ' = b.getD (bestj - 1) ' ' then
      extendHead a b alo blo fuel (besti - 1, bestj - 1, bestsize + 1)
    else (besti, bestj, bestsize)

/-- Second extension loop: grow the best block forwards while the adjacent
elements match.  Each step requires `besti + bestsize < ahi` and increments
`bestsize`, so fuel `ahi` again lets the guard terminate the loop. -/
def extendTail (a b : List Char) (ahi bhi besti bestj : Nat) :
    Nat → Nat → Nat
  | 0, bestsize => bestsize
  | fuel + 1, bestsize =>
    if besti + bestsize < ahi ∧ bestj + bestsize < bhi ∧
        a.getD (besti + bestsize) ' ' = b.getD (bestj + bestsize) ' ' then
      extendTail a b ahi bhi besti bestj fuel (bestsize + 1)
    else bestsize

/-- `SequenceMatcher.find_longest_match` on `a[alo:ahi]` × `b[blo:bhi]`. -/
def find_longest_match (a b : List Char) (alo ahi blo bhi : Nat) :
    Nat × Nat × Nat :=
  let m := extendHead a b alo blo (flmMain a b alo ahi blo bhi).1
    (flmMain a b alo ahi blo bhi)
  (m.1, m.2.1, extendTail a b ahi bhi m.1 m.2.1 ahi m.2.2)

/-- Total size of all matching blocks (`sum of Match.size` over
`get_matching_blocks`; the queue/adjacent-collapse bookkeeping does not
change the total).  Fuel bounds the recursion depth; each genuine
recursive call strictly shrinks `(ahi - alo) + (bhi - blo)`, so
`a.length + b.length + 1` fuel at the top call is never exhausted. -/
def matchTotal (a b : List Char) : Nat → Nat → Nat → Nat → Nat → Nat
  | 0, _, _, _, _ => 0
  | fuel + 1, alo, ahi, blo, bhi =>
    let m := find_longest_match a b alo ahi blo bhi
    if m.2.2 = 0 then 0
    else
      matchTotal a b fuel alo m.1 blo m.2.1 + m.2.2 +
        matchTotal a b fuel (m.1 + m.2.2) ahi (m.2.1 + m.2.2) bhi

/-- `SequenceMatcher(None, a, b).ratio()` as an exact rational:
`2*M/T`, and `1` when both sequences are empty.  Stated with `mkRat` so
that the value kernel-evaluates; `smRatio_eq_div` below restates it with
`/` exactly as in `difflib._calculate_ratio`. -/
def smRatio (a b : List Char) : ℚ :=
  if a.length + b.length = 0 then 1
  else mkRat (2 * matchTotal a b (a.length + b.length + 1) 0 a.length 0 b.length)
    (a.length + b.length)

/-- `similarity_ratio` from src/main.py: ratio of the normalized strings. -/
def similarity_ratio (str1 str2 : List Char) : ℚ :=
  smRatio (normalize_text str1) (normalize_text str2)

/-! ### Data model and duplicate classifier -/

/-- A job record, with the full field set the scrapers produce
(src/main.py builds these dicts with exactly these keys). -/
structure Job where
  title : List Char
  company : List Char
  location : List Char
  work_mode : List Char
  experience : List Char
  salary : List Char
  source : List Char
  url : List Char
  date_posted : List Char
  scraped_at : List Char
  deriving DecidableEq

/-- `is_duplicate(job1, job2, threshold)` from src/main.py: exact
normalized title+company match, else fuzzy title/company similarity, else
shared non-empty non-"search" URL (the `in`/truthiness tests become
emptiness and substring checks). -/
def is_duplicate (job1 job2 : Job) (threshold : ℚ) : Bool :=
  if normalize_text job1.title = normalize_text job2.title ∧
      normalize_text job1.company = normalize_text job2.company then
    true
  else
    let title_similarity := similarity_ratio job1.title job2.title
    let company_similarity := similarity_ratio job1.company job2.company
    if title_similarity ≥ threshold ∧ company_similarity ≥ mkRat 9 10 then
      true
    else
      if job1.url ≠ [] ∧ job2.url ≠ [] ∧ job1.url = job2.url ∧
          containsSub ("search".toList) (lowerChars job1.url) = false then
        true
      else
        false

/-! ### Dedup engine -/

/-- Loop body of `remove_duplicates`: fold over the incoming records,
carrying the accepted `unique_jobs` list and the `duplicates_removed`
counter.  The inner for/break over `unique_jobs` is `List.any`. -/
def removeDuplicatesGo (threshold : ℚ) (unique_jobs : List Job)
    (duplicates_removed : Nat) : List Job → List Job × Nat
  | [] => (unique_jobs, duplicates_removed)
  | job :: rest =>
    if unique_jobs.any (fun unique_job => is_duplicate job unique_job threshold) then
      removeDuplicatesGo threshold unique_jobs (duplicates_removed + 1) rest
    else
      removeDuplicatesGo threshold (unique_jobs ++ [job]) duplicates_removed rest

/-- `remove_duplicates(jobs_list, similarity_threshold)` from src/main.py,
including the early return on an empty list. -/
def remove_duplicates (jobs_list : List Job) (similarity_threshold : ℚ) :
    List Job × Nat :=
  if jobs_list = [] then ([], 0)
  else removeDuplicatesGo similarity_threshold [] 0 jobs_list

/-! ### The three classifier rules, stated independently (for C5) -/

/-- Rule 1 of the classifier: exact match of normalized title and company. -/
def exactRule (job1 job2 : Job) : Bool :=
  normalize_text job1.title = normalize_text job2.title ∧
    normalize_text job1.company = normalize_text job2.company

/-- Rule 2 of the classifier: title similarity at least the caller's
threshold and company similarity at least the fixed 0.9 floor. -/
def fuzzyRule (job1 job2 : Job) (threshold : ℚ) : Bool :=
  similarity_ratio job1.title job2.title ≥ threshold ∧
    similarity_ratio job1.company job2.company ≥ mkRat 9 10

/-- Rule 3 of the classifier: both URLs non-empty, equal as raw strings,
and neither containing the case-insensitive substring "search". -/
def urlRule (job1 job2 : Job) : Bool :=
  job1.url ≠ [] ∧ job2.url ≠ [] ∧ job1.url = job2.url ∧
    containsSub ("search".toList) (lowerChars job1.url) = false ∧
    containsSub ("search".toList) (lowerChars job2.url) = false

/-! ### Incremental merge controller -/

/-- `scrape_all_sources` without the I/O: each source batch is deduped on
its own and appended (batches that scraped nothing are skipped), then one
cross-source dedup pass runs over the concatenation; returns the final
batch and the cross-source removed count. -/
def scrape_all_sources (batches : List (List Job)) (dedup_threshold : ℚ) :
    List Job × Nat :=
  let all_jobs := batches.foldl
    (fun acc jobs =>
      if jobs.length > 0 then acc ++ (remove_duplicates jobs dedup_threshold).1
      else acc)
    []
  if all_jobs ≠ [] then remove_duplicates all_jobs dedup_threshold
  else (all_jobs, 0)

/-- Sum of the per-source removed counts that `scrape_all_sources` shows
in its per-source status lines (stage 1 of the pipeline). -/
def perSourceRemoved (batches : List (List Job)) (dedup_threshold : ℚ) : Nat :=
  (batches.map (fun jobs => (remove_duplicates jobs dedup_threshold).2)).sum

/-- Results of one "Start Deep Scraping" cycle. -/
structure CycleStats where
  final_unique_jobs : List Job
  cross_dups : Nat
  final_dups : Nat
  truly_new : Int
  total_dups_removed : Int
  deriving DecidableEq

/-- The "Start Deep Scraping" handler from src/main.py: scrape all
sources, dedup the combination of the session's accumulated jobs with the
new batch, and compute `truly_new` and `total_dups_removed` exactly as
the handler does. -/
def startDeepScraping (old_jobs : List Job) (batches : List (List Job))
    (dedup_threshold : ℚ) : CycleStats :=
  let p := scrape_all_sources batches dedup_threshold
  let new_jobs := p.1
  let cross_dups := p.2
  let combined_jobs := old_jobs ++ new_jobs
  let q := remove_duplicates combined_jobs dedup_threshold
  let final_unique_jobs := q.1
  let final_dups := q.2
  let truly_new : Int := (final_unique_jobs.length : Int) - (old_jobs.length : Int)
  let total_dups_removed : Int :=
    (new_jobs.length : Int) - truly_new + (cross_dups : Int) + (final_dups : Int)
  ⟨final_unique_jobs, cross_dups, final_dups, truly_new, total_dups_removed⟩

/-- The sum of duplicates discarded across the three stages of one cycle:
per-source dedup, cross-source dedup, final merge. -/
def stageSumRemoved (old_jobs : List Job) (batches : List (List Job))
    (dedup_threshold : ℚ) : Int :=
  (perSourceRemoved batches dedup_threshold : Int) +
    ((scrape_all_sources batches dedup_threshold).2 : Int) +
    ((remove_duplicates (old_jobs ++ (scrape_all_sources batches dedup_threshold).1)
        dedup_threshold).2 : Int)

/-- The Dedup Engine algorithm as §4.4 of the spec words it: scan `unique`
in order, classify the incoming record on the **first** member for which
`is_duplicate(incoming, existing, threshold)` holds, discard it and bump
`removed_count`; otherwise append the incoming record. -/
def dedupSpecGo (threshold : ℚ) (unique : List Job) (removed : Nat) :
    List Job → List Job × Nat
  | [] => (unique, removed)
  | incoming :: rest =>
    match unique.find? (fun existing => is_duplicate incoming existing threshold) with
    | some _ => dedupSpecGo threshold unique (removed + 1) rest
    | none => dedupSpecGo threshold (unique ++ [incoming]) removed rest

/-- Concrete records for the concrete-input theorems: only title, company
and url vary; the remaining fields are empty. -/
def mkJob (t c u : String) : Job :=
  ⟨t.toList, c.toList, [], [], [], [], [], u.toList, [], []⟩

/-- A record with the given title, company "acme", and no URL. -/
def jobTitled (t : String) : Job := mkJob t "acme" ""

/-- A record like `mkJob "it support" "acme" "https://x.com/j/1"` but with
every classifier-irrelevant field (location, work mode, experience,
salary, source, posting date, scrape time) filled in. -/
def jobFullA : Job :=
  ⟨"it support".toList, "acme".toList, "bangalore".toList, "Remote".toList,
    "3 yrs".toList, "10 LPA".toList, "LinkedIn".toList,
    "https://x.com/j/1".toList, "2025-01-01".toList, "2025-01-01 10:00".toList⟩

/-- Same title, company and URL as `jobFullA`, different everything else. -/
def jobFullB : Job :=
  ⟨"it support".toList, "acme".toList, "mumbai".toList, "Hybrid".toList,
    "see posting".toList, "not disclosed".toList, "Naukri.com".toList,
    "https://x.com/j/1".toList, "2024-12-31".toList, "2024-12-31 09:00".toList⟩

/-! ### Lemmas about the similarity scorer -/

/-- `smRatio` is `2*M/T` (with `1` for two empty sequences), matching
`difflib._calculate_ratio(matches, length)`. -/
theorem smRatio_eq_div (a b : List Char) :
    smRatio a b = if a.length + b.length = 0 then 1
      else (2 * (matchTotal a b (a.length + b.length + 1) 0 a.length 0 b.length) : ℚ) /
        (a.length + b.length) := by
  unfold smRatio
  split
  · rfl
  · rw [Rat.mkRat_eq_div]
    push_cast
    ring_nf

/-! ### Lemmas about the dedup engine -/

theorem removeDuplicatesGo_append (t : ℚ) (xs ys : List Job) :
    ∀ (u : List Job) (r : Nat),
      removeDuplicatesGo t u r (xs ++ ys) =
        removeDuplicatesGo t (removeDuplicatesGo t u r xs).1
          (removeDuplicatesGo t u r xs).2 ys := by
  induction xs with
  | nil => intro u r; rfl
  | cons x xs ih =>
    intro u r
    simp only [List.cons_append, removeDuplicatesGo]
    split
    · exact ih _ _
    · exact ih _ _

theorem removeDuplicatesGo_shape (t : ℚ) (L : List Job) :
    ∀ (u : List Job) (r : Nat), ∃ s : List Job,
      (removeDuplicatesGo t u r L).1 = u ++ s ∧ s.Sublist L ∧
        (removeDuplicatesGo t u r L).2 + s.length = r + L.length := by
  induction L with
  | nil =>
    intro u r
    exact ⟨[], by simp [removeDuplicatesGo]⟩
  | cons x xs ih =>
    intro u r
    simp only [removeDuplicatesGo]
    split
    · obtain ⟨s, h1, h2, h3⟩ := ih u (r + 1)
      exact ⟨s, h1, h2.cons x, by simp only [List.length_cons]; omega⟩
    · obtain ⟨s, h1, h2, h3⟩ := ih (u ++ [x]) r
      refine ⟨x :: s, ?_, h2.cons₂ x, ?_⟩
      · rw [h1, List.append_assoc, List.singleton_append]
      · simp only [List.length_cons]; omega

theorem removeDuplicatesGo_pairwise (t : ℚ) (L : List Job) :
    ∀ (u : List Job) (r : Nat),
      u.Pairwise (fun a b => is_duplicate b a t = false) →
      (removeDuplicatesGo t u r L).1.Pairwise
        (fun a b => is_duplicate b a t = false) := by
  induction L with
  | nil => intro u r h; exact h
  | cons x xs ih =>
    intro u r h
    simp only [removeDuplicatesGo]
    split
    · exact ih _ _ h
    · rename_i hany
      refine ih _ _ ?_
      rw [List.pairwise_append]
      refine ⟨h, List.pairwise_singleton _ _, ?_⟩
      intro a ha b hb
      rw [List.mem_singleton] at hb
      subst hb
      have h' := List.any_eq_false.mp (Bool.not_eq_true _ ▸ hany)
      simpa using h' a ha

theorem removeDuplicatesGo_clean_id (t : ℚ) (L : List Job) :
    ∀ (u : List Job) (r : Nat),
      (∀ b ∈ L, ∀ a ∈ u, is_duplicate b a t = false) →
      L.Pairwise (fun a b => is_duplicate b a t = false) →
      removeDuplicatesGo t u r L = (u ++ L, r) := by
  induction L with
  | nil => intro u r _ _; simp [removeDuplicatesGo]
  | cons x xs ih =>
    intro u r hcross hpair
    rw [List.pairwise_cons] at hpair
    have hany : (u.any fun unique_job => is_duplicate x unique_job t) = false := by
      rw [List.any_eq_false]
      intro a ha
      simp [hcross x (List.mem_cons_self x xs) a ha]
    simp only [removeDuplicatesGo, hany, Bool.false_eq_true, if_false]
    rw [ih (u ++ [x]) r ?_ hpair.2]
    · rw [List.append_assoc, List.singleton_append]
    · intro b hb a ha
      rw [List.mem_append, List.mem_singleton] at ha
      rcases ha with ha | rfl
      · exact hcross b (List.mem_cons_of_mem x hb) a ha
      · exact hpair.1 b hb

theorem remove_duplicates_eq_go (L : List Job) (t : ℚ) :
    remove_duplicates L t = removeDuplicatesGo t [] 0 L := by
  cases L <;> rfl

theorem removeDuplicatesGo_eq_spec (t : ℚ) (L : List Job) :
    ∀ (u : List Job) (r : Nat),
      removeDuplicatesGo t u r L = dedupSpecGo t u r L := by
  induction L with
  | nil => intro u r; rfl
  | cons x xs ih =>
    intro u r
    simp only [removeDuplicatesGo, dedupSpecGo]
    rcases hfind : u.find? (fun existing => is_duplicate x existing t) with _ | e
    · have hany : (u.any fun unique_job => is_duplicate x unique_job t) = false := by
        rw [List.any_eq_false]
        intro a ha
        simpa using List.find?_eq_none.mp hfind a ha
      rw [hany]
      simp only [Bool.false_eq_true, if_false]
      exact ih _ _
    · have hany : (u.any fun unique_job => is_duplicate x unique_job t) = true := by
        rw [List.any_eq_true]
        exact ⟨e, List.mem_of_find?_eq_some hfind,
          List.find?_some (p := fun existing => is_duplicate x existing t) hfind⟩
      rw [hany]
      simp only [if_true]
      exact ih _ _

/-! ### Lemmas about the classifier -/

/-- The sequential short-circuit classifier equals the disjunction of its
three rules (with the URL rule stated with both URLs checked: the raw
equality makes the two substring checks agree). -/
theorem is_duplicate_eq_rules (job1 job2 : Job) (t : ℚ) :
    is_duplicate job1 job2 t =
      (exactRule job1 job2 || fuzzyRule job1 job2 t || urlRule job1 job2) := by
  unfold is_duplicate exactRule fuzzyRule urlRule
  by_cases h1 : normalize_text job1.title = normalize_text job2.title ∧
      normalize_text job1.company = normalize_text job2.company
  · simp [h1]
  · rw [if_neg h1]
    by_cases h2 : similarity_ratio job1.title job2.title ≥ t ∧
        similarity_ratio job1.company job2.company ≥ mkRat 9 10
    · simp [h1, h2]
    · rw [if_neg h2]
      by_cases h3 : job1.url ≠ [] ∧ job2.url ≠ [] ∧ job1.url = job2.url ∧
          containsSub ("search".toList) (lowerChars job1.url) = false
      · rw [if_pos h3]
        obtain ⟨ha, hb, hc, hd⟩ := h3
        have hd2 : containsSub ("search".toList) (lowerChars job2.url) = false := by
          rw [← hc]; exact hd
        have hC : decide (job1.url ≠ [] ∧ job2.url ≠ [] ∧ job1.url = job2.url ∧
            containsSub ("search".toList) (lowerChars job1.url) = false ∧
            containsSub ("search".toList) (lowerChars job2.url) = false) = true :=
          decide_eq_true ⟨ha, hb, hc, hd, hd2⟩
        rw [hC]
        simp
      · rw [if_neg h3]
        have hur : ¬ (job1.url ≠ [] ∧ job2.url ≠ [] ∧ job1.url = job2.url ∧
            containsSub ("search".toList) (lowerChars job1.url) = false ∧
            containsSub ("search".toList) (lowerChars job2.url) = false) := by
          rintro ⟨ha, hb, hc, hd, he⟩
          exact h3 ⟨ha, hb, hc, hd⟩
        rw [decide_eq_false h1, decide_eq_false h2, decide_eq_false hur]
        simp

theorem exactRule_symm (job1 job2 : Job) :
    exactRule job1 job2 = exactRule job2 job1 := by
  unfold exactRule
  exact decide_eq_decide.mpr
    ⟨fun ⟨a, b⟩ => ⟨a.symm, b.symm⟩, fun ⟨a, b⟩ => ⟨a.symm, b.symm⟩⟩

theorem urlRule_symm (job1 job2 : Job) :
    urlRule job1 job2 = urlRule job2 job1 := by
  unfold urlRule
  exact decide_eq_decide.mpr
    ⟨fun ⟨a, b, c, d, e⟩ => ⟨b, a, c.symm, e, d⟩,
     fun ⟨a, b, c, d, e⟩ => ⟨b, a, c.symm, e, d⟩⟩

theorem fuzzyRule_symm_of_ratio_symm (job1 job2 : Job) (t : ℚ)
    (ht : similarity_ratio job1.title job2.title =
      similarity_ratio job2.title job1.title)
    (hc : similarity_ratio job1.company job2.company =
      similarity_ratio job2.company job1.company) :
    fuzzyRule job1 job2 t = fuzzyRule job2 job1 t := by
  unfold fuzzyRule
  rw [ht, hc]

/-! ### Lemmas about the normalizer -/

theorem isUpper_toLower (c : Char) : (Char.toLower c).isUpper = false := by
  unfold Char.toLower
  by_cases h : c.toNat ≥ 65 ∧ c.toNat ≤ 90
  · rw [if_pos h]
    obtain ⟨h1, h2⟩ := h
    interval_cases h : c.toNat <;> decide
  · rw [if_neg h]
    rw [Bool.eq_false_iff]
    intro hu
    apply h
    unfold Char.isUpper at hu
    rw [Bool.and_eq_true, decide_eq_true_eq, decide_eq_true_eq] at hu
    obtain ⟨h1, h2⟩ := hu
    exact ⟨UInt32.le_toNat_of_le (by decide) h1, UInt32.toNat_le_of_le (by decide) h2⟩

theorem mem_of_mem_dropWhile (p : Char → Bool) :
    ∀ (l : List Char) (c : Char), c ∈ l.dropWhile p → c ∈ l := by
  intro l c h
  induction l with
  | nil => simp [List.dropWhile] at h
  | cons x xs ih =>
    rw [List.dropWhile_cons] at h
    split at h
    · exact List.mem_cons_of_mem x (ih h)
    · exact h

theorem mem_of_mem_stripChars (c : Char) (s : List Char) :
    c ∈ stripChars s → c ∈ s := by
  intro h
  unfold stripChars at h
  rw [List.mem_reverse] at h
  have h2 := mem_of_mem_dropWhile _ _ _ h
  rw [List.mem_reverse] at h2
  exact mem_of_mem_dropWhile _ _ _ h2

theorem mem_collapseGo (c : Char) :
    ∀ (l : List Char) (flag : Bool), c ∈ collapseGo flag l →
      c = ' ' ∨ (c ∈ l ∧ isSpaceChar c = false) := by
  intro l
  induction l with
  | nil => intro flag h; simp [collapseGo] at h
  | cons x xs ih =>
    intro flag h
    rw [collapseGo] at h
    split at h
    · rw [List.mem_append] at h
      rcases h with h | h
      · rcases flag with _ | _
        · left; simpa using h
        · simp at h
      · rcases ih true h with h | ⟨hm, hs⟩
        · left; exact h
        · right; exact ⟨List.mem_cons_of_mem x hm, hs⟩
    · rename_i hx
      rw [List.mem_cons] at h
      rcases h with rfl | h
      · right
        exact ⟨List.mem_cons_self c xs, Bool.eq_false_iff.mpr hx⟩
      · rcases ih false h with h | ⟨hm, hs⟩
        · left; exact h
        · right; exact ⟨List.mem_cons_of_mem x hm, hs⟩

theorem collapseGo_true_head :
    ∀ (l : List Char) (c : Char),
      (collapseGo true l).head? = some c → isSpaceChar c = false := by
  intro l
  induction l with
  | nil => intro c h; simp [collapseGo] at h
  | cons x xs ih =>
    intro c h
    rw [collapseGo] at h
    split at h
    · simpa using ih c (by simpa using h)
    · rename_i hx
      rw [List.head?_cons, Option.some_inj] at h
      subst h
      exact Bool.eq_false_iff.mpr hx

theorem collapseGo_chain (l : List Char) :
    ∀ flag : Bool, (collapseGo flag l).Chain'
      (fun c1 c2 => ¬(c1 = ' ' ∧ c2 = ' ')) := by
  induction l with
  | nil => intro flag; simp [collapseGo]
  | cons x xs ih =>
    intro flag
    rw [collapseGo]
    split
    · rcases flag with _ | _
      · simp only [Bool.false_eq_true, if_false, List.singleton_append]
        rw [List.chain'_cons']
        refine ⟨?_, ih true⟩
        intro b hb
        rintro ⟨-, rfl⟩
        have := collapseGo_true_head xs ' ' hb
        simp [isSpaceChar] at this
      · simpa using ih true
    · rename_i hx
      rw [List.chain'_cons']
      refine ⟨?_, ih false⟩
      intro b hb
      rintro ⟨rfl, -⟩
      simp [isSpaceChar] at hx

/-! ### Claim theorems -/

/-- C1 (code bug): evaluating the merge cycle on old set `[]` and the
single source batch `[X, X]` (an exact duplicate pair): the per-source
stage removes 1, the cross-source and final stages remove 0, so the
three-stage sum is 1, yet the handler reports `total_dups_removed = 0`
(its formula `len(new_jobs) - truly_new + cross_dups + final_dups` equals
`cross_dups + 2 * final_dups` and never includes per-source removals). -/
theorem C1_total_reported_vs_stage_sum :
    (85 : ℚ) / 100 = mkRat 85 100 ∧
    perSourceRemoved [[jobTitled "it support", jobTitled "it support"]] (mkRat 85 100) = 1 ∧
    (startDeepScraping [] [[jobTitled "it support", jobTitled "it support"]]
      (mkRat 85 100)).total_dups_removed = 0 ∧
    stageSumRemoved [] [[jobTitled "it support", jobTitled "it support"]]
      (mkRat 85 100) = 1 := by
  refine ⟨?_, by decide, by decide, by decide⟩
  rw [Rat.mkRat_eq_div]
  norm_num

/-- C2 counterexample: with the batch
`[cdefghx, abcdefghij, abcdef, efghij]` (all companies "acme", no URLs)
and thresholds `t1 = 0.7 < t2 = 0.75` (both in [0.7, 1.0]),
`remove_duplicates` removes 1 duplicate at the lower threshold but 2 at
the higher one — `removed_count` is **not** antitone in the threshold. -/
theorem C2_monotonicity_counterexample :
    (7 : ℚ) / 10 = mkRat 7 10 ∧ (3 : ℚ) / 4 = mkRat 3 4 ∧
    mkRat 7 10 < mkRat 3 4 ∧ mkRat 3 4 ≤ 1 ∧
    (remove_duplicates [jobTitled "cdefghx", jobTitled "abcdefghij",
      jobTitled "abcdef", jobTitled "efghij"] (mkRat 7 10)).2 = 1 ∧
    (remove_duplicates [jobTitled "cdefghx", jobTitled "abcdefghij",
      jobTitled "abcdef", jobTitled "efghij"] (mkRat 3 4)).2 = 2 := by
  refine ⟨?_, ?_, by decide, by decide, by decide, by decide⟩
  · rw [Rat.mkRat_eq_div]; norm_num
  · rw [Rat.mkRat_eq_div]; norm_num

/-- C2 (amended): raising the threshold weakens the *classifier*
pointwise — for `t1 ≤ t2`, any pair classified duplicate at `t2` is
classified duplicate at `t1` — but the aggregate `removed_count` of
`remove_duplicates` is not monotone in the threshold (see the
counterexample). -/
theorem C2_classifier_pointwise_antitone (job1 job2 : Job) (t1 t2 : ℚ)
    (h : t1 ≤ t2) (hdup : is_duplicate job1 job2 t2 = true) :
    is_duplicate job1 job2 t1 = true := by
  rw [is_duplicate_eq_rules] at hdup ⊢
  rw [Bool.or_eq_true, Bool.or_eq_true] at hdup ⊢
  rcases hdup with (he | hf) | hu
  · exact Or.inl (Or.inl he)
  · refine Or.inl (Or.inr ?_)
    unfold fuzzyRule at hf ⊢
    rw [decide_eq_true_eq] at hf
    exact decide_eq_true ⟨le_trans h hf.1, hf.2⟩
  · exact Or.inr hu

theorem C2_classifier_pointwise_antitone_witness :
    (mkRat 7 10 : ℚ) ≤ mkRat 85 100 ∧
    is_duplicate (jobTitled "it support") (jobTitled "it support") (mkRat 7 10) = true :=
  ⟨by decide, C2_classifier_pointwise_antitone (jobTitled "it support")
    (jobTitled "it support") (mkRat 7 10) (mkRat 85 100) (by decide) (by decide)⟩

/-- C3: `remove_duplicates` is the spec's greedy first-seen-survives
dedup: it equals the first-match scan `dedupSpecGo` (scan `unique` in
order, first hit discards the incoming record and bumps the counter),
empty input yields `([], 0)`, the survivors form a sublist of the input
(relative order preserved), and `removed_count` accounts exactly for the
discarded records. -/
theorem C3_greedy_first_seen_survives (L : List Job) (t : ℚ) :
    remove_duplicates L t = dedupSpecGo t [] 0 L ∧
    remove_duplicates ([] : List Job) t = ([], 0) ∧
    (remove_duplicates L t).1.Sublist L ∧
    (remove_duplicates L t).2 + (remove_duplicates L t).1.length = L.length := by
  obtain ⟨s, h1, h2, h3⟩ := removeDuplicatesGo_shape t L [] 0
  refine ⟨?_, rfl, ?_, ?_⟩
  · rw [remove_duplicates_eq_go]
    exact removeDuplicatesGo_eq_spec t L [] 0
  · rw [remove_duplicates_eq_go, h1]
    simpa using h2
  · rw [remove_duplicates_eq_go, h1]
    simp only [List.nil_append]
    omega

/-- C4: when the old accumulated set is pairwise duplicate-free at the
current threshold, deduping `old ++ new` keeps every old record unchanged
and in place (the output is `old ++ s`), appends only a sublist `s` of
the new batch, removes exactly `len(new) - len(s)` records, and
`truly_new = len(final) - len(old) = len(s)`. -/
theorem C4_final_merge_frame (old_jobs new_jobs : List Job) (t : ℚ)
    (h : old_jobs.Pairwise
      (fun a b => is_duplicate a b t = false ∧ is_duplicate b a t = false)) :
    ∃ s : List Job,
      remove_duplicates (old_jobs ++ new_jobs) t =
        (old_jobs ++ s, new_jobs.length - s.length) ∧
      s.Sublist new_jobs ∧
      ((remove_duplicates (old_jobs ++ new_jobs) t).1.length : Int) -
        (old_jobs.length : Int) = (s.length : Int) := by
  have hold : removeDuplicatesGo t [] 0 old_jobs = (old_jobs, 0) := by
    have hid := removeDuplicatesGo_clean_id t old_jobs [] 0 (by simp)
      (h.imp (fun hab => hab.2))
    simpa using hid
  obtain ⟨s, h1, h2, h3⟩ := removeDuplicatesGo_shape t new_jobs old_jobs 0
  have hgo : remove_duplicates (old_jobs ++ new_jobs) t =
      removeDuplicatesGo t old_jobs 0 new_jobs := by
    rw [remove_duplicates_eq_go, removeDuplicatesGo_append, hold]
  refine ⟨s, ?_, h2, ?_⟩
  · rw [hgo, Prod.ext_iff]
    exact ⟨h1, by omega⟩
  · rw [hgo, h1, List.length_append]
    push_cast
    omega

theorem C4_final_merge_frame_witness :
    ([jobTitled "help desk analyst", mkJob "network engineer" "globex" ""]).Pairwise
      (fun a b => is_duplicate a b (mkRat 85 100) = false ∧
        is_duplicate b a (mkRat 85 100) = false) ∧
    ∃ s : List Job,
      remove_duplicates ([jobTitled "help desk analyst",
          mkJob "network engineer" "globex" ""] ++
        [jobTitled "help desk analyst", mkJob "qa tester" "initech" ""])
        (mkRat 85 100) =
        ([jobTitled "help desk analyst", mkJob "network engineer" "globex" ""] ++ s,
          [jobTitled "help desk analyst", mkJob "qa tester" "initech" ""].length -
            s.length) ∧
      s.Sublist [jobTitled "help desk analyst", mkJob "qa tester" "initech" ""] ∧
      ((remove_duplicates ([jobTitled "help desk analyst",
          mkJob "network engineer" "globex" ""] ++
        [jobTitled "help desk analyst", mkJob "qa tester" "initech" ""])
        (mkRat 85 100)).1.length : Int) -
        (([jobTitled "help desk analyst",
          mkJob "network engineer" "globex" ""] : List Job).length : Int) =
        (s.length : Int) :=
  ⟨by decide, C4_final_merge_frame _ _ _ (by decide)⟩

/-- C5: the classifier is exactly the disjunction of its three rules
(exact normalized title+company match; title similarity above the
caller's threshold with the fixed 0.9 company floor; shared non-empty
non-"search" URL), and reordering the disjuncts does not change the
result. -/
theorem C5_classifier_is_three_rule_disjunction (job1 job2 : Job) (t : ℚ) :
    is_duplicate job1 job2 t =
      (exactRule job1 job2 || fuzzyRule job1 job2 t || urlRule job1 job2) ∧
    is_duplicate job1 job2 t =
      (urlRule job1 job2 || fuzzyRule job1 job2 t || exactRule job1 job2) := by
  refine ⟨is_duplicate_eq_rules job1 job2 t, ?_⟩
  rw [is_duplicate_eq_rules]
  rcases hE : exactRule job1 job2 <;> rcases hF : fuzzyRule job1 job2 t <;>
    rcases hU : urlRule job1 job2 <;> rfl

/-- C6: deduplication is idempotent: re-running `remove_duplicates` on
its own unique output with the same threshold returns that output
unchanged with 0 removed. -/
theorem C6_dedup_idempotent (L : List Job) (t : ℚ) :
    remove_duplicates ((remove_duplicates L t).1) t =
      ((remove_duplicates L t).1, 0) := by
  have hpw : (remove_duplicates L t).1.Pairwise
      (fun a b => is_duplicate b a t = false) := by
    rw [remove_duplicates_eq_go]
    exact removeDuplicatesGo_pairwise t L [] 0 List.Pairwise.nil
  rw [remove_duplicates_eq_go ((remove_duplicates L t).1) t]
  have hid := removeDuplicatesGo_clean_id t ((remove_duplicates L t).1) [] 0
    (by simp) hpw
  simpa using hid

/-- C7 counterexample: `SequenceMatcher.ratio` is not symmetric —
`ratio("aba", "babba") = 3/4` but `ratio("babba", "aba") = 1/2` — and at
threshold 0.7 (same company, no URLs) the classifier itself is
order-dependent on this pair. -/
theorem C7_symmetry_counterexample :
    similarity_ratio ("aba".toList) ("babba".toList) ≠
      similarity_ratio ("babba".toList) ("aba".toList) ∧
    similarity_ratio ("aba".toList) ("babba".toList) = mkRat 3 4 ∧
    similarity_ratio ("babba".toList) ("aba".toList) = mkRat 1 2 ∧
    is_duplicate (jobTitled "aba") (jobTitled "babba") (mkRat 7 10) = true ∧
    is_duplicate (jobTitled "babba") (jobTitled "aba") (mkRat 7 10) = false := by
  refine ⟨by decide, by decide, by decide, by decide, by decide⟩

/-- C7 (amended): the exact-match and URL rules are symmetric
unconditionally, and `is_duplicate(A, B, t) = is_duplicate(B, A, t)`
whenever the underlying similarity ratio is symmetric on the pair's
titles and on their companies; but `similarity_ratio` (difflib's ratio)
is not symmetric in general, so neither is the classifier (see the
counterexample). -/
theorem C7_classifier_symmetric_given_ratio_symmetry (job1 job2 : Job) (t : ℚ)
    (ht : similarity_ratio job1.title job2.title =
      similarity_ratio job2.title job1.title)
    (hc : similarity_ratio job1.company job2.company =
      similarity_ratio job2.company job1.company) :
    is_duplicate job1 job2 t = is_duplicate job2 job1 t := by
  rw [is_duplicate_eq_rules job1 job2 t, is_duplicate_eq_rules job2 job1 t,
    exactRule_symm job1 job2, urlRule_symm job1 job2,
    fuzzyRule_symm_of_ratio_symm job1 job2 t ht hc]

theorem C7_classifier_symmetric_witness :
    similarity_ratio (mkJob "it support" "acme" "").title
        (mkJob "it support engineer" "acme corp" "").title =
      similarity_ratio (mkJob "it support engineer" "acme corp" "").title
        (mkJob "it support" "acme" "").title ∧
    similarity_ratio (mkJob "it support" "acme" "").company
        (mkJob "it support engineer" "acme corp" "").company =
      similarity_ratio (mkJob "it support engineer" "acme corp" "").company
        (mkJob "it support" "acme" "").company ∧
    is_duplicate (mkJob "it support" "acme" "")
        (mkJob "it support engineer" "acme corp" "") (mkRat 85 100) =
      is_duplicate (mkJob "it support engineer" "acme corp" "")
        (mkJob "it support" "acme" "") (mkRat 85 100) :=
  ⟨by decide, by decide,
    C7_classifier_symmetric_given_ratio_symmetry _ _ _ (by decide) (by decide)⟩

/-- C8 counterexample: `normalize_text` lowercases and trims **before**
removing punctuation, so `"! _a"` normalizes to `" _a"` — an output with
a leading space (whitespace was not re-trimmed) that still contains the
non-alphanumeric character `'_'` (Python's `\w` keeps underscores). -/
theorem C8_normalize_counterexample :
    normalize_text ("! _a".toList) = " _a".toList ∧
    (normalize_text ("! _a".toList)).head? = some ' ' ∧
    isSpaceChar ' ' = true ∧
    '_' ∈ normalize_text ("! _a".toList) ∧
    Char.isAlphanum '_' = false := by
  refine ⟨by decide, by decide, by decide, by decide, by decide⟩

/-- C8 (amended): `normalize_text` is total; empty input yields the empty
string; every output character is lowercase (never an ASCII capital) and
is an alphanumeric, an underscore, or a single space; and whitespace runs
are collapsed — no two adjacent spaces survive.  Trimming happens before
punctuation removal, so at most a single leading/trailing space (from a
removed punctuation character next to a space) may remain, and
underscores are kept (Python `\w`). -/
theorem C8_normalize_shape (s : List Char) :
    normalize_text ([] : List Char) = [] ∧
    (∀ c ∈ normalize_text s, c.isUpper = false ∧
      (c.isAlphanum = true ∨ c = '_' ∨ c = ' ')) ∧
    (normalize_text s).Chain' (fun c1 c2 => ¬(c1 = ' ' ∧ c2 = ' ')) := by
  refine ⟨rfl, ?_, ?_⟩
  · intro c hc
    unfold normalize_text at hc
    split at hc
    · simp at hc
    · unfold collapseSpaces at hc
      rcases mem_collapseGo c _ false hc with rfl | ⟨hm, hsp⟩
      · exact ⟨by decide, Or.inr (Or.inr rfl)⟩
      · rw [List.mem_filter] at hm
        obtain ⟨hmem, hp⟩ := hm
        have hup : c.isUpper = false := by
          have hml := mem_of_mem_stripChars c _ hmem
          unfold lowerChars at hml
          rw [List.mem_map] at hml
          obtain ⟨d, -, rfl⟩ := hml
          exact isUpper_toLower d
        refine ⟨hup, ?_⟩
        rw [Bool.or_eq_true] at hp
        rcases hp with hw | hs
        · unfold isWordChar at hw
          rw [Bool.or_eq_true, decide_eq_true_eq] at hw
          rcases hw with hw | hw
          · exact Or.inl hw
          · exact Or.inr (Or.inl hw)
        · rw [hs] at hsp
          exact absurd hsp (by simp)
  · unfold normalize_text
    split
    · simp
    · exact collapseGo_chain _ false

/-- C9 counterexample: two records whose title and company both normalize
to the empty string **are** classified duplicates by the exact-match rule
(empty equals empty); the source has no guard for absent fields. -/
theorem C9_absent_fields_counterexample :
    normalize_text (mkJob "" "" "").title = [] ∧
    normalize_text (mkJob "" "" "").company = [] ∧
    exactRule (mkJob "" "" "") (mkJob "" "" "") = true ∧
    is_duplicate (mkJob "" "" "") (mkJob "" "" "") (mkRat 85 100) = true := by
  refine ⟨by decide, by decide, by decide, by decide⟩

/-- C9 (amended): the exact-match rule never fires when a compared field
(title or company) is absent/empty-normalizing in exactly **one** of the
two records (empty never equals non-empty); but when a field is absent in
both, the two empty normalizations compare equal, and a pair empty in
both fields is classified duplicate by the exact rule (unguarded — the
spec's §9 open question). -/
theorem C9_exact_rule_one_sided_absent (job1 job2 : Job)
    (h : (normalize_text job1.title = [] ∧ normalize_text job2.title ≠ []) ∨
      (normalize_text job1.title ≠ [] ∧ normalize_text job2.title = []) ∨
      (normalize_text job1.company = [] ∧ normalize_text job2.company ≠ []) ∨
      (normalize_text job1.company ≠ [] ∧ normalize_text job2.company = [])) :
    exactRule job1 job2 = false := by
  unfold exactRule
  rw [decide_eq_false_iff_not]
  rintro ⟨h1, h2⟩
  rcases h with ⟨ha, hb⟩ | ⟨ha, hb⟩ | ⟨ha, hb⟩ | ⟨ha, hb⟩
  · exact hb (by rw [← h1]; exact ha)
  · exact ha (by rw [h1]; exact hb)
  · exact hb (by rw [← h2]; exact ha)
  · exact ha (by rw [h2]; exact hb)

theorem C9_exact_rule_one_sided_absent_witness :
    (normalize_text (mkJob "" "acme" "").title = [] ∧
      normalize_text (mkJob "it support" "acme" "").title ≠ []) ∧
    exactRule (mkJob "" "acme" "") (mkJob "it support" "acme" "") = false :=
  ⟨⟨by decide, by decide⟩,
    C9_exact_rule_one_sided_absent _ _ (Or.inl ⟨by decide, by decide⟩)⟩

/-- C10: the classifier reads only the `title`, `company` and `url`
fields: two pairs agreeing on those three fields in both positions get
the same classification at every threshold, whatever their location,
work mode, experience, salary, source, posting date or scrape time. -/
theorem C10_classifier_noninterference (job1 job2 job1' job2' : Job) (t : ℚ)
    (h1t : job1.title = job1'.title) (h1c : job1.company = job1'.company)
    (h1u : job1.url = job1'.url) (h2t : job2.title = job2'.title)
    (h2c : job2.company = job2'.company) (h2u : job2.url = job2'.url) :
    is_duplicate job1 job2 t = is_duplicate job1' job2' t := by
  unfold is_duplicate
  rw [h1t, h1c, h1u, h2t, h2c, h2u]

theorem C10_classifier_noninterference_witness :
    is_duplicate jobFullA (jobTitled "service desk analyst") (mkRat 85 100) =
      is_duplicate jobFullB (jobTitled "service desk analyst") (mkRat 85 100) :=
  C10_classifier_noninterference jobFullA (jobTitled "service desk analyst")
    jobFullB (jobTitled "service desk analyst") (mkRat 85 100)
    rfl rfl rfl rfl rfl rfl

end JobSearch
